import Mathlib

/-!
Verification of the core of a minimal retrieval-augmented-generation demo:
a chunker (`chunk_text`), a flat-file vector store (`cosine_similarity`,
`SimpleVectorStore.load/save/add/search`) and the retrieval pipeline
(`ingest_records`, `build_prompt`).

Modelling conventions:
* Python strings are lists of characters (`Str`).
* Python floats are rationals; `math.sqrt` has no exact rational value, so
  every definition that uses it is parameterised by a function `sq : ℚ → ℚ`
  standing for the float square root.
* The JSON text written by `save` and parsed by `load` is modelled at the
  level of the JSON document tree (`Json`), with `json.dumps` as `encodeItem`
  and `json.loads` plus the field accesses as `decodeItem`.
* The external embedding service is an order-preserving oracle
  `embed : Str → List ℚ`; `uuid.uuid4()` is a supply `uuidOf : Nat → Str`
  consumed left to right.
* Python `while` loops are translated with an explicit fuel parameter; a
  `none` result means the fuel ran out before the loop finished.
-/

namespace RagDemo

/-- Python strings modelled as lists of characters. -/
abbrev Str := List Char

/-- Python `str.strip()`: drop leading and trailing whitespace. -/
def pyStrip (s : Str) : Str :=
  ((s.dropWhile Char.isWhitespace).reverse.dropWhile Char.isWhitespace).reverse

/-- The float literal `1e-8` from `cosine_similarity`. -/
def eps : ℚ := 1 / 100000000

/-- The dot product `sum(x * y for x, y in zip(a, b))`; Python `zip` truncates to
the shorter of the two lists. -/
def dotProduct (a b : List ℚ) : ℚ := ((a.zip b).map fun p => p.1 * p.2).sum

/-- The squared norm `sum(x * x for x in a)`. -/
def sumSquares (a : List ℚ) : ℚ := (a.map fun x => x * x).sum

/-- Python `x or y` on floats: `y` exactly when `x` is `0.0`. -/
def pyOrFloat (x y : ℚ) : ℚ := if x = 0 then y else x

/-- The denominator `(math.sqrt(Σx²) or 1e-8) * (math.sqrt(Σy²) or 1e-8)` of
`cosine_similarity`, with `math.sqrt` modelled by the parameter `sq`. -/
def cosDenom (sq : ℚ → ℚ) (a b : List ℚ) : ℚ :=
  pyOrFloat (sq (sumSquares a)) eps * pyOrFloat (sq (sumSquares b)) eps

/-- `cosine_similarity(a, b)` from `vectorstore.py`. -/
def cosine_similarity (sq : ℚ → ℚ) (a b : List ℚ) : ℚ :=
  dotProduct a b / cosDenom sq a b

/-- One record of the vector store: the dict
`{"id": ..., "text": ..., "source": ..., "embedding": ...}`.  A `none`
embedding models a loaded item whose dict has no usable `"embedding"` key. -/
structure Item where
  id : Str
  text : Str
  source : Str
  embedding : Option (List ℚ)
deriving DecidableEq

/-- Python truthiness of `item.get("embedding")`: a missing key (`None`) and an
empty list are falsy, any non-empty list is truthy. -/
def embTruthy : Option (List ℚ) → Bool
  | none => false
  | some e => decide (e ≠ [])

/-- The score given to one item inside `search`:
`cosine_similarity(query_embedding, item["embedding"]) if item.get("embedding") else 0.0`. -/
def itemScore (sq : ℚ → ℚ) (q : List ℚ) (it : Item) : ℚ :=
  if embTruthy it.embedding then cosine_similarity sq q (it.embedding.getD []) else 0

/-- The list `scored` built by the loop in `search`: one `(score, item)` pair
per stored item, in insertion order. -/
def scoredOf (sq : ℚ → ℚ) (q : List ℚ) (items : List Item) : List (ℚ × Item) :=
  items.map fun it => (itemScore sq q it, it)

/-- The comparator realised by `scored.sort(key=lambda t: t[0], reverse=True)`:
a stable sort that puts higher scores first. -/
def searchLe (a b : ℚ × Item) : Bool := decide (b.1 ≤ a.1)

/-- `SimpleVectorStore.search`: score every item, stable-sort descending by
score, return the items of the first `k` entries. -/
def search (sq : ℚ → ℚ) (items : List Item) (q : List ℚ) (k : Nat) : List Item :=
  (((scoredOf sq q items).mergeSort searchLe).take k).map fun p => p.2

/-- The scored pairs decorated with their insertion index and stable-sorted by
the lexicographic order "strictly higher score first, ties by lower index
first" (`List.enumLE searchLe` is exactly that order; proved below). -/
def rankedWithIdx (sq : ℚ → ℚ) (items : List Item) (q : List ℚ) :
    List (Nat × (ℚ × Item)) :=
  (scoredOf sq q items).enum.mergeSort (List.enumLE searchLe)

/-! ## The chunker (`rag.py`, `chunk_text`) -/

/-- The `while start < n` loop of `chunk_text`, one constructor step per
iteration, with explicit fuel.  `text[start:end]` is
`(text.drop start).take (end - start)`; the update
`start = end - overlap; if start < 0: start = 0` is truncated subtraction
on `Nat`.  `none` means the fuel was exhausted before the loop finished. -/
def chunkLoop (text : Str) (C O : Nat) : Nat → Nat → Option (List Str)
  | 0, _ => none
  | fuel+1, start =>
    if start < text.length then
      let e := min (start + C) text.length
      let chunk := pyStrip ((text.drop start).take (e - start))
      let rest? := if e = text.length then some [] else chunkLoop text C O fuel (e - O)
      rest?.map fun rest => if chunk.isEmpty then rest else chunk :: rest
    else
      some []

/-- `chunk_text(text, chunk_size, overlap)`.  The fuel `text.length + 1`
suffices whenever `overlap < chunk_size` (proved below); when the Python loop
would not terminate the fallback value `[]` is returned. -/
def chunk_text (text : Str) (C O : Nat) : List Str :=
  (chunkLoop text C O (text.length + 1) 0).getD []

/-- The same loop but collecting the raw, untrimmed windows
`text[start:end]` instead of the stripped and filtered chunks. -/
def windowLoop (text : Str) (C O : Nat) : Nat → Nat → Option (List Str)
  | 0, _ => none
  | fuel+1, start =>
    if start < text.length then
      let e := min (start + C) text.length
      let w := (text.drop start).take (e - start)
      if e = text.length then some [w]
      else (windowLoop text C O fuel (e - O)).map fun rest => w :: rest
    else
      some []

/-- The raw windows visited by `chunk_text`. -/
def chunkWindows (text : Str) (C O : Nat) : List Str :=
  (windowLoop text C O (text.length + 1) 0).getD []

/-- Glue a list of windows that successively share `O` characters: keep the
first window whole and drop the first `O` characters of every later one. -/
def joinWithOverlap (O : Nat) : List Str → Str
  | [] => []
  | w :: rest => w ++ (rest.map fun t => t.drop O).flatten

/-- Two consecutive windows share exactly `O` characters: the final `O`
characters of the first are the initial `O` characters of the second, and
both windows are strictly longer than `O`. -/
def overlapRel (O : Nat) (a b : Str) : Prop :=
  O < a.length ∧ O < b.length ∧ a.drop (a.length - O) = b.take O

/-! ## Python values and ingestion records -/

/-- Just enough of a Python value for the record fields the pipeline reads:
`vnone` is `None` (also a missing key), `vstr` a string, `vother` any other
value of which only the truthiness matters. -/
inductive PyVal where
  | vnone : PyVal
  | vstr : Str → PyVal
  | vother : Bool → PyVal
deriving DecidableEq

/-- Python truthiness: `None` is falsy, a string is truthy iff non-empty. -/
def PyVal.truthy : PyVal → Bool
  | PyVal.vnone => false
  | PyVal.vstr s => decide (s ≠ [])
  | PyVal.vother t => t

/-- Python `a or b`: `a` when truthy, else `b`. -/
def pyOrV (a b : PyVal) : PyVal := if a.truthy then a else b

/-- An ingestion record: only the `"text"` and `"description"` fields are ever
read; `vnone` models an absent key. -/
structure Record where
  text : PyVal
  description : PyVal
deriving DecidableEq

/-- `rec.get("text") or rec.get("description") or ""`. -/
def extractText (rec : Record) : PyVal :=
  pyOrV rec.text (pyOrV rec.description (PyVal.vstr []))

/-- The guard `if not isinstance(text, str) or not text.strip(): continue`:
`some s` iff the value is a string with non-blank content. -/
def validText : PyVal → Option Str
  | PyVal.vstr s => if (pyStrip s).isEmpty then none else some s
  | _ => none

/-! ## JSON persistence (`SimpleVectorStore.save` / `load`) -/

/-- A JSON document tree, the image of `json.dumps`/`json.loads`. -/
inductive Json where
  | jnull : Json
  | jbool : Bool → Json
  | jnum : ℚ → Json
  | jstr : Str → Json
  | jarr : List Json → Json
  | jobj : List (Str × Json) → Json

/-- Key lookup in a JSON object, as `json.loads` dicts are accessed. -/
def getField (fields : List (Str × Json)) (key : Str) : Option Json :=
  (fields.find? fun p => decide (p.1 = key)).map fun p => p.2

def keyId : Str := "id".data
def keyText : Str := "text".data
def keySource : Str := "source".data
def keyEmbedding : Str := "embedding".data

/-- Serialisation of one item dict by `json.dumps`.  An item without an
embedding is a dict without the `"embedding"` key. -/
def encodeItem (it : Item) : Json :=
  Json.jobj ([(keyId, Json.jstr it.id), (keyText, Json.jstr it.text),
    (keySource, Json.jstr it.source)] ++
    (match it.embedding with
     | some e => [(keyEmbedding, Json.jarr (e.map Json.jnum))]
     | none => []))

/-- Read back a list of numbers; anything non-numeric makes the list unusable. -/
def decodeNums : List Json → Option (List ℚ)
  | [] => some []
  | Json.jnum x :: rest => (decodeNums rest).map fun xs => x :: xs
  | _ => none

/-- Interpretation of one parsed dict as a store item, mirroring the field
accesses `item["id"]`, `item["text"]`, `item["source"]`,
`item.get("embedding")` performed by the store and the pipeline. -/
def decodeItem : Json → Option Item
  | Json.jobj fields =>
    match getField fields keyId, getField fields keyText, getField fields keySource with
    | some (Json.jstr i), some (Json.jstr t), some (Json.jstr s) =>
      some { id := i, text := t, source := s,
             embedding := match getField fields keyEmbedding with
               | some (Json.jarr js) => decodeNums js
               | _ => none }
    | _, _, _ => none
  | _ => none

def decodeItemList : List Json → Option (List Item)
  | [] => some []
  | j :: js =>
    match decodeItem j, decodeItemList js with
    | some it, some its => some (it :: its)
    | _, _ => none

/-- The parsed content of the whole backing file: one JSON array of items. -/
def decodeItems : Json → Option (List Item)
  | Json.jarr js => decodeItemList js
  | _ => none

/-- The observable state of a `SimpleVectorStore`: the backing file (`none`
when the file does not exist, otherwise its parsed JSON document) and the
in-memory item list. -/
structure StoreState where
  file : Option Json
  items : List Item

/-- `SimpleVectorStore.save`: overwrite the file with the serialised items. -/
def save (s : StoreState) : StoreState :=
  { s with file := some (Json.jarr (s.items.map encodeItem)) }

/-- `SimpleVectorStore.load`: a missing file yields the empty collection;
otherwise the parsed document replaces the items.  `none` models the
exception raised on a document that is not a list of item dicts. -/
def load (s : StoreState) : Option StoreState :=
  match s.file with
  | none => some { s with items := [] }
  | some j => (decodeItems j).map fun its => { s with items := its }

/-- `SimpleVectorStore.add`: append one item dict. -/
def add (s : StoreState) (doc_id text source : Str) (embedding : List ℚ) : StoreState :=
  { s with items := s.items ++ [Item.mk doc_id text source (some embedding)] }

/-- `SimpleVectorStore.search` as a state-passing operation: the returned
value together with the store state after the call.  The method only reads
`self.items` (the sort mutates the local list `scored`, never the store), so
the state is threaded through unchanged. -/
def searchOp (sq : ℚ → ℚ) (s : StoreState) (q : List ℚ) (k : Nat) :
    List Item × StoreState :=
  (search sq s.items q k, s)

/-! ## The retrieval pipeline (`rag.py`) -/

/-- Result of `RAGPipeline.ingest_records`, together with the effects a caller
can observe: the returned count, the store state, the consumed id supply, and
the number of calls made to the embedding service. -/
structure IngestOut where
  ret : Nat
  store : StoreState
  ctr : Nat
  embedCalls : Nat

/-- The record loop of `ingest_records`: flatten the records into the chunk
list and the parallel list of freshly drawn uuids, threading the id supply. -/
def chunkIds (uuidOf : Nat → Str) : List Record → Nat → List Str × List Str × Nat
  | [], ctr => ([], [], ctr)
  | rec :: rest, ctr =>
    match validText (extractText rec) with
    | none => chunkIds uuidOf rest ctr
    | some t =>
      let cs := chunk_text t 800 120
      let ids := (List.range cs.length).map fun i => uuidOf (ctr + i)
      let out := chunkIds uuidOf rest (ctr + cs.length)
      (cs ++ out.1, ids ++ out.2.1, out.2.2)

/-- `RAGPipeline.ingest_records(records, source_name)`.  `chunk_text` is called
with the module defaults `chunk_size=800, overlap=120`; `embed_texts` returns
one embedding per chunk in input order, modelled by mapping the oracle
`embed`; it is invoked once, and only after the early return for an empty
chunk list. -/
def ingest_records (embed : Str → List ℚ) (uuidOf : Nat → Str) (s : StoreState)
    (ctr : Nat) (records : List Record) (source_name : Str) : IngestOut :=
  let gathered := chunkIds uuidOf records ctr
  let chunks := gathered.1
  let ids := gathered.2.1
  if chunks.isEmpty then
    { ret := 0, store := s, ctr := gathered.2.2, embedCalls := 0 }
  else
    let embeds := chunks.map embed
    let s1 := ((ids.zip (chunks.zip embeds)).foldl
      (fun st p => add st p.1 p.2.1 source_name p.2.2) s)
    { ret := chunks.length, store := save s1, ctr := gathered.2.2, embedCalls := 1 }

/-! ## Prompt assembly (`RAGPipeline.build_prompt`) -/

/-- One chat message produced by `build_prompt`. -/
structure Message where
  role : Str
  content : Str
deriving DecidableEq

/-- One entry of the incoming `history` list; both fields are arbitrary
Python values. -/
structure HistMsg where
  role : PyVal
  content : PyVal
deriving DecidableEq

def strUser : Str := "user".data
def strAssistant : Str := "assistant".data
def strSystem : Str := "system".data

/-- First half of the fixed system instruction string. -/
def systemTextA : String :=
  "You are a helpful assistant answering questions about medical imaging "

/-- Second half of the fixed system instruction string. -/
def systemTextB : String :=
  "and radiology. Use only the provided context. If unsure, say you don't know."

/-- The fixed system instruction string. -/
def systemMsgText : Str := systemTextA.data ++ systemTextB.data

def srcOpen : Str := "[Source: ".data
def srcClose : Str := "]\n".data
def sepBlank : Str := "\n\n".data
def contextTag : Str := "Context:\n".data
def questionTag : Str := "Question: ".data
def newlineStr : Str := "\n".data

/-- One context entry: the source tag line followed by the item text. -/
def ctxEntry (c : Item) : Str :=
  srcOpen ++ c.source ++ srcClose ++ c.text

/-- The join, with blank lines, over the formatted context entries. -/
def contextBlock (contexts : List Item) : Str :=
  List.intercalate sepBlank (contexts.map ctxEntry)

/-- The final user message: the context block framed by the context tag and
the question line. -/
def userMsgText (query : Str) (contexts : List Item) : Str :=
  contextTag ++ contextBlock contexts ++ sepBlank ++
    questionTag ++ query ++ newlineStr

/-- The history filter: keep an entry iff its role is the string `"user"` or
`"assistant"` and its content is a string. -/
def histConv (m : HistMsg) : Option Message :=
  match m.role, m.content with
  | PyVal.vstr r, PyVal.vstr c =>
    if r = strUser ∨ r = strAssistant then some { role := r, content := c } else none
  | _, _ => none

/-- `RAGPipeline.build_prompt(query, contexts, history)`.  `history[-6:]` is
`drop (length - 6)`; the guard `if history:` skips the loop entirely for an
empty (or absent) history. -/
def build_prompt (query : Str) (contexts : List Item) (history : List HistMsg) :
    List Message :=
  ({ role := strSystem, content := systemMsgText } : Message) ::
    ((if history.isEmpty then [] else
        (history.drop (history.length - 6)).filterMap histConv) ++
      [{ role := strUser, content := userMsgText query contexts }])


/-! ## Concrete inputs and specification-side helpers used by the claims -/

/-- A two-character text on which `chunk_text` with `overlap = chunk_size`
stalls forever. -/
def stallText : Str := "ab".data

/-- A text starting with a space, on which trimming makes the produced chunks
fail to cover the text. -/
def spaceAText : Str := " a".data

/-- A small concrete text used to instantiate universally quantified
theorems. -/
def demoText : Str := "abcde".data

/-- The chunks one record contributes in `ingest_records`: none when its
extracted text is invalid, otherwise `chunk_text` at the module defaults. -/
def validChunks (rec : Record) : List Str :=
  match validText (extractText rec) with
  | none => []
  | some t => chunk_text t 800 120

/-- Specification of the items `ingest_records` appends: one item per chunk,
in order, carrying consecutive fresh ids, the source name and the chunk's
embedding. -/
def newItems (embed : Str → List ℚ) (uuidOf : Nat → Str) (src : Str) :
    List Str → Nat → List Item
  | [], _ => []
  | c :: cs, ctr =>
    Item.mk (uuidOf ctr) c src (some (embed c)) :: newItems embed uuidOf src cs (ctr + 1)

/-- A concrete injective id supply for witnesses. -/
def demoUuid (n : Nat) : Str := List.replicate n 'x'

/-- A concrete embedding oracle for witnesses. -/
def demoEmbed (s : Str) : List ℚ := [(s.length : ℚ)]

/-- A store whose backing file does not exist and whose items are empty. -/
def emptyStore : StoreState := { file := none, items := [] }

/-- One record with valid text, for witnesses. -/
def demoRecords : List Record := [Record.mk (PyVal.vstr demoText) PyVal.vnone]

/-- Records none of which carries usable text: a record with no `text` or
`description` key, and a record whose text is blank and whose description is
a falsy non-string. -/
def invalidRecords : List Record :=
  [Record.mk PyVal.vnone PyVal.vnone,
   Record.mk (PyVal.vstr (' ' :: [])) (PyVal.vother false)]

/-! ## Supporting lemmas -/

lemma sumSquares_nonneg (a : List ℚ) : 0 ≤ sumSquares a := by
  apply List.sum_nonneg
  intro x hx
  simp only [List.mem_map] at hx
  obtain ⟨y, -, rfl⟩ := hx
  exact mul_self_nonneg y

lemma eps_pos : 0 < eps := by norm_num [eps]

lemma pyOrFloat_sq_pos (sq : ℚ → ℚ) (hsq : ∀ x : ℚ, 0 ≤ x → 0 ≤ sq x)
    (x : ℚ) (hx : 0 ≤ x) : 0 < pyOrFloat (sq x) eps := by
  unfold pyOrFloat
  split
  · exact eps_pos
  · rename_i h
    exact lt_of_le_of_ne (hsq x hx) (Ne.symm h)

lemma decodeNums_encode (e : List ℚ) : decodeNums (e.map Json.jnum) = some e := by
  induction e with
  | nil => rfl
  | cons x xs ih => simp [decodeNums, ih]

lemma decodeItem_encodeItem (it : Item) : decodeItem (encodeItem it) = some it := by
  obtain ⟨i, t, s, e⟩ := it
  cases e with
  | none => rfl
  | some v =>
    have h1 : decodeItem (encodeItem (Item.mk i t s (some v))) =
        some (Item.mk i t s (decodeNums (v.map Json.jnum))) := rfl
    rw [h1, decodeNums_encode]

lemma decodeItemList_encode (items : List Item) :
    decodeItemList (items.map encodeItem) = some items := by
  induction items with
  | nil => rfl
  | cons it its ih => simp [decodeItemList, decodeItem_encodeItem, ih]

/-! ## Claims about the vector store -/

/-- Claim C9: `search` never mutates the store.  The state-passing embedding
of `SimpleVectorStore.search` returns the item list and the file contents
exactly as they were on entry, and its value is the pure function of the
entry state; the method body only reads `self.items` and performs no file
operation. -/
theorem search_never_mutates (sq : ℚ → ℚ) (s : StoreState) (q : List ℚ) (k : Nat) :
    (searchOp sq s q k).2.items = s.items ∧ (searchOp sq s q k).2.file = s.file ∧
    (searchOp sq s q k).1 = search sq s.items q k :=
  ⟨rfl, rfl, rfl⟩

/-- Claim C5: scoring is total.  For any square-root function that is
non-negative on non-negative inputs (as `math.sqrt` is), both factors of the
cosine denominator are strictly positive — the `or 1e-8` guard replaces a
zero square root by the positive epsilon — so `cosine_similarity` is the
division of the dot product by a non-zero denominator for every pair of
vectors, including empty and all-zero ones; and an item whose embedding is
missing or empty is scored `0.0` without evaluating the cosine. -/
theorem scoring_total_no_div_by_zero (sq : ℚ → ℚ)
    (hsq : ∀ x : ℚ, 0 ≤ x → 0 ≤ sq x) :
    (∀ a b : List ℚ, 0 < cosDenom sq a b) ∧
    (∀ a b : List ℚ, cosine_similarity sq a b = dotProduct a b / cosDenom sq a b) ∧
    (∀ (q : List ℚ) (it : Item), embTruthy it.embedding = false →
      itemScore sq q it = 0) := by
  refine ⟨fun a b => ?_, fun a b => rfl, fun q it h => ?_⟩
  · exact mul_pos (pyOrFloat_sq_pos sq hsq _ (sumSquares_nonneg a))
      (pyOrFloat_sq_pos sq hsq _ (sumSquares_nonneg b))
  · simp [itemScore, h]

/-- Witness for C5 at the concrete square-root stand-in `id`. -/
theorem scoring_total_no_div_by_zero_witness :
    (∀ x : ℚ, 0 ≤ x → 0 ≤ id x) ∧
    ((∀ a b : List ℚ, 0 < cosDenom id a b) ∧
     (∀ a b : List ℚ, cosine_similarity id a b = dotProduct a b / cosDenom id a b) ∧
     (∀ (q : List ℚ) (it : Item), embTruthy it.embedding = false →
       itemScore id q it = 0)) :=
  ⟨fun _ h => h, scoring_total_no_div_by_zero id (fun _ h => h)⟩

/-- Counterexample to claim C7: with vectors `a = [1, 1]` and `b = [1]`,
truncating both to the common length 1 changes the result, because the norm
in the denominator is computed over the whole of `a`, not its truncation.
Here `math.sqrt` is instantiated with `id` (`sqrt 1 = 1` is exact; for `a`
the value of `sqrt 2` is irrelevant: any value other than `1` separates the
two sides, as the floating `sqrt 2 ≈ 1.41` does). -/
theorem cosine_truncation_counterexample :
    ¬ (cosine_similarity id [(1 : ℚ), 1] [(1 : ℚ)] =
       cosine_similarity id ([(1 : ℚ), 1].take (min 2 1)) ([(1 : ℚ)].take (min 2 1))) := by
  norm_num [cosine_similarity, dotProduct, sumSquares, cosDenom, pyOrFloat, eps,
    List.zip]

/-- Amended claim C7: in `cosine_similarity` only the dot product is
truncated to the common prefix of the two vectors (Python `zip` stops at the
shorter list); each norm in the denominator is computed over its full
vector, so elements past the common length still affect the result through
the denominator. -/
theorem cosine_mismatched_truncates_dot_only (sq : ℚ → ℚ) (a b : List ℚ) :
    cosine_similarity sq a b =
      dotProduct (a.take (min a.length b.length)) (b.take (min a.length b.length)) /
        cosDenom sq a b := by
  have hz : (a.take (min a.length b.length)).zip (b.take (min a.length b.length)) =
      a.zip b := by
    show List.zipWith Prod.mk _ _ = List.zipWith Prod.mk a b
    rw [← List.take_zipWith]
    exact List.take_of_length_le (by simp)
  unfold cosine_similarity dotProduct
  rw [hz]

/-- Claim C3: `save()` followed by `load()` on a fresh store pointed at the
same file restores exactly the item collection that was saved: the file
holds the serialised items, and decoding is a left inverse of encoding, so
every position gets back the same id, text, source and embedding. -/
theorem store_save_load_roundtrip (s : StoreState) :
    load { file := (save s).file, items := [] } =
      some { file := (save s).file, items := s.items } := by
  simp [save, load, decodeItems, decodeItemList_encode]

lemma histConv_role {m : HistMsg} {msg : Message} (h : histConv m = some msg) :
    msg.role = strUser ∨ msg.role = strAssistant := by
  unfold histConv at h
  split at h
  · split at h
    · rename_i hrc
      injection h with h2
      subst h2
      exact hrc
    · exact absurd h (by simp)
  · exact absurd h (by simp)

/-- Claim C8: `build_prompt` returns exactly one system message first, then at
most 6 messages obtained from the last 6 history entries by keeping, in their
original order, those whose role is the string `"user"` or `"assistant"` and
whose content is a string, and finally one user message whose content
contains the query and the context block. -/
theorem build_prompt_shape (q : Str) (ctxs : List Item) (hist : List HistMsg) :
    build_prompt q ctxs hist =
      { role := strSystem, content := systemMsgText } ::
        (((hist.drop (hist.length - 6)).filterMap histConv) ++
          [{ role := strUser, content := userMsgText q ctxs }]) ∧
    ((hist.drop (hist.length - 6)).filterMap histConv).length ≤ 6 ∧
    (∀ m ∈ (hist.drop (hist.length - 6)).filterMap histConv,
      (m.role = strUser ∨ m.role = strAssistant) ∧
      ∃ h2 ∈ hist.drop (hist.length - 6), histConv h2 = some m) ∧
    ((build_prompt q ctxs hist).filter fun m => decide (m.role = strSystem)).length = 1 ∧
    q <:+: userMsgText q ctxs ∧ contextBlock ctxs <:+: userMsgText q ctxs := by
  have hshape : build_prompt q ctxs hist =
      { role := strSystem, content := systemMsgText } ::
        (((hist.drop (hist.length - 6)).filterMap histConv) ++
          [{ role := strUser, content := userMsgText q ctxs }]) := by
    cases hist <;> simp [build_prompt]
  have hroles : ∀ m ∈ (hist.drop (hist.length - 6)).filterMap histConv,
      (m.role = strUser ∨ m.role = strAssistant) ∧
      ∃ h2 ∈ hist.drop (hist.length - 6), histConv h2 = some m := by
    intro m hm
    rw [List.mem_filterMap] at hm
    obtain ⟨h2, hh2, hconv⟩ := hm
    exact ⟨histConv_role hconv, h2, hh2, hconv⟩
  refine ⟨hshape, ?_, hroles, ?_, ?_, ?_⟩
  · calc ((hist.drop (hist.length - 6)).filterMap histConv).length
        ≤ (hist.drop (hist.length - 6)).length := List.length_filterMap_le _ _
      _ ≤ 6 := by simp; omega
  · rw [hshape]
    have hmid : (((hist.drop (hist.length - 6)).filterMap histConv).filter
        fun m => decide (m.role = strSystem)) = [] := by
      rw [List.filter_eq_nil_iff]
      intro m hm
      rcases (hroles m hm).1 with h1 | h1 <;> simp [h1] <;> decide
    simp [List.filter_cons, hmid]
    decide
  · exact ⟨contextTag ++ contextBlock ctxs ++ sepBlank ++ questionTag,
      newlineStr, by simp [userMsgText]⟩
  · exact ⟨contextTag,
      sepBlank ++ questionTag ++ q ++ newlineStr, by simp [userMsgText]⟩

lemma chunkLoop_isSome (text : Str) (C O : Nat) (hO : O < C) :
    ∀ fuel start, text.length - start < fuel →
      (chunkLoop text C O fuel start).isSome = true := by
  intro fuel
  induction fuel with
  | zero => intro start h; omega
  | succ f ih =>
    intro start h
    rw [chunkLoop]
    by_cases hs : start < text.length
    · simp only [if_pos hs]
      by_cases he : min (start + C) text.length = text.length
      · simp [he]
      · have hrec : (chunkLoop text C O f (min (start + C) text.length - O)).isSome = true := by
          apply ih
          omega
        simp only [if_neg he]
        simpa using hrec
    · simp [hs]

lemma chunkLoop_stalls : ∀ fuel, chunkLoop stallText 1 1 fuel 0 = none := by
  intro fuel
  induction fuel with
  | zero => rfl
  | succ f ih =>
    rw [chunkLoop]
    have h1 : stallText.length = 2 := rfl
    simp only [h1]
    norm_num
    rw [ih]

/-- Claim C4: under `1 ≤ chunk_size` and `overlap < chunk_size` the loop of
`chunk_text` finishes within `len(text) + 1` iterations (each iteration
moves `start` forward by at least `chunk_size - overlap ≥ 1`), while for
`overlap ≥ chunk_size` — which no guard excludes — progress can stall: on
the two-character text `"ab"` with `chunk_size = 1, overlap = 1` the loop
returns to `start = 0` every iteration and never terminates, whatever fuel
it is given. -/
theorem chunk_text_terminates_iff_overlap_lt (text : Str) (C O : Nat)
    (hC : 1 ≤ C) (hO : O < C) :
    (chunkLoop text C O (text.length + 1) 0).isSome = true ∧
    (∀ fuel, chunkLoop stallText 1 1 fuel 0 = none) :=
  ⟨chunkLoop_isSome text C O hO (text.length + 1) 0 (by omega), chunkLoop_stalls⟩

/-- Witness for C4 at `text = "ab"`, `chunk_size = 2`, `overlap = 1`. -/
theorem chunk_text_terminates_iff_overlap_lt_witness :
    (1 ≤ 2 ∧ 1 < 2) ∧
    ((chunkLoop stallText 2 1 (stallText.length + 1) 0).isSome = true ∧
     (∀ fuel, chunkLoop stallText 1 1 fuel 0 = none)) :=
  ⟨by decide, chunk_text_terminates_iff_overlap_lt stallText 2 1 (by decide) (by decide)⟩

lemma pyStrip_length_le (s : Str) : (pyStrip s).length ≤ s.length := by
  unfold pyStrip
  calc ((s.dropWhile Char.isWhitespace).reverse.dropWhile Char.isWhitespace).reverse.length
      = ((s.dropWhile Char.isWhitespace).reverse.dropWhile Char.isWhitespace).length := by
        simp
    _ ≤ (s.dropWhile Char.isWhitespace).reverse.length :=
        (List.dropWhile_sublist _).length_le
    _ = (s.dropWhile Char.isWhitespace).length := by simp
    _ ≤ s.length := (List.dropWhile_sublist _).length_le

lemma chunkLoop_eq_windowLoop (text : Str) (C O : Nat) :
    ∀ fuel start, chunkLoop text C O fuel start =
      (windowLoop text C O fuel start).map fun ws =>
        (ws.map pyStrip).filter fun c => !c.isEmpty := by
  intro fuel
  induction fuel with
  | zero => intro start; rfl
  | succ f ih =>
    intro start
    rw [chunkLoop, windowLoop]
    by_cases hs : start < text.length
    · simp only [if_pos hs]
      by_cases he : min (start + C) text.length = text.length
      · simp only [if_pos he]
        by_cases hc : (pyStrip ((text.drop start).take
            (min (start + C) text.length - start))).isEmpty <;>
          simp [hc, List.filter_cons]
      · simp only [if_neg he, ih]
        cases windowLoop text C O f (min (start + C) text.length - O) with
        | none => rfl
        | some rest =>
          by_cases hc : (pyStrip ((text.drop start).take
              (min (start + C) text.length - start))).isEmpty <;>
            simp [hc, List.filter_cons]
    · simp [hs]

lemma windowLoop_spec (text : Str) (C O : Nat) (hO : O < C) :
    ∀ fuel start ws, windowLoop text C O fuel start = some ws →
      joinWithOverlap O ws = text.drop start ∧
      (∀ w ∈ ws, w.length ≤ C) ∧
      ws.head? = (if start < text.length then
        some ((text.drop start).take (min (start + C) text.length - start)) else none) ∧
      List.Chain' (overlapRel O) ws := by
  intro fuel
  induction fuel with
  | zero => intro start ws h; exact absurd h (by rw [windowLoop]; simp)
  | succ f ih =>
    intro start ws h
    rw [windowLoop] at h
    by_cases hs : start < text.length
    · by_cases he : min (start + C) text.length = text.length
      · simp only [if_pos hs, if_pos he, Option.some.injEq] at h
        subst h
        have hlen : ((text.drop start).take (min (start + C) text.length - start)).length ≤ C := by
          simp only [List.length_take, List.length_drop]
          omega
        refine ⟨?_, ?_, ?_, List.chain'_singleton _⟩
        · show (text.drop start).take (min (start + C) text.length - start) ++ [] = text.drop start
          rw [List.append_nil, he]
          exact List.take_of_length_le (by simp)
        · intro w hw
          rw [List.mem_singleton] at hw
          subst hw
          exact hlen
        · simp [hs]
      · simp only [if_pos hs, if_neg he] at h
        rw [Option.map_eq_some'] at h
        obtain ⟨rest, hrest, hws⟩ := h
        subst hws
        have hmin : min (start + C) text.length = start + C := by omega
        have hlt : start + C < text.length := by omega
        obtain ⟨ihj, ihlen, ihhead, ihchain⟩ := ih (min (start + C) text.length - O) rest hrest
        have hs2 : min (start + C) text.length - O < text.length := by omega
        rw [if_pos hs2] at ihhead
        cases rest with
        | nil => exact absurd ihhead (by simp)
        | cons w2 rest2 =>
          rw [List.head?_cons, Option.some.injEq] at ihhead
          have hw2len : O < w2.length := by
            rw [ihhead]
            simp only [List.length_take, List.length_drop]
            omega
          have hwlen : ((text.drop start).take (min (start + C) text.length - start)).length = C := by
            simp only [List.length_take, List.length_drop]
            omega
          refine ⟨?_, ?_, ?_, ?_⟩
          · have hjoin : joinWithOverlap O
                (((text.drop start).take (min (start + C) text.length - start)) :: w2 :: rest2) =
                ((text.drop start).take (min (start + C) text.length - start)) ++
                  (joinWithOverlap O (w2 :: rest2)).drop O := by
              show _ ++ _ = _ ++ List.drop O (w2 ++ _)
              rw [List.drop_append_of_le_length (by omega)]
              simp [joinWithOverlap]
            rw [hjoin, ihj, List.drop_drop]
            have he2 : min (start + C) text.length - O + O = start + C := by omega
            rw [he2]
            have hd : text.drop (start + C) =
                (text.drop start).drop (min (start + C) text.length - start) := by
              rw [List.drop_drop]
              congr 1
              omega
            rw [hd]
            exact List.take_append_drop _ _
          · intro w hw
            rcases List.mem_cons.mp hw with hw1 | hw1
            · subst hw1
              rw [hwlen]
            · exact ihlen w hw1
          · simp [hs]
          · rw [List.chain'_cons]
            refine ⟨⟨by rw [hwlen]; exact hO, hw2len, ?_⟩, ihchain⟩
            rw [hwlen, ihhead]
            rw [List.drop_take, List.drop_drop]
            rw [List.take_take]
            have h1 : min (start + C) text.length - start - (C - O) = O := by omega
            have h2 : start + (C - O) = min (start + C) text.length - O := by omega
            have h3 : min O (min ((min (start + C) text.length - O) + C) text.length -
                (min (start + C) text.length - O)) = O := by omega
            rw [h1, h2, h3]
    · rw [if_neg hs] at h
      rw [Option.some.injEq] at h
      subst h
      have hend : text.length ≤ start := by omega
      refine ⟨by simp [joinWithOverlap, List.drop_eq_nil_of_le hend], by simp,
        by simp [hs], List.chain'_nil⟩

/-- Counterexample to claim C2: on the text `" a"` with `chunk_size = 2`,
`overlap = 0` (within the claimed parameter range) the single produced chunk
is `"a"`: the leading space belongs to no chunk, so the chunks do not cover
the text end-to-end — `chunk_text` trims each window with `.strip()` before
keeping it. -/
theorem chunk_cover_counterexample :
    chunk_text spaceAText 2 0 = [('a' :: [])] ∧ (' ' ∈ spaceAText) ∧
    (' ' ∉ (chunk_text spaceAText 2 0).flatten) ∧
    joinWithOverlap 0 (chunk_text spaceAText 2 0) ≠ spaceAText := by decide

/-- Amended claim C2: for `chunk_size = C ≥ 1` and `0 ≤ O < C` the raw,
untrimmed windows `text[start : min(start+C, L)]` visited by `chunk_text`
cover the text end-to-end (gluing them while dropping each successor's first
`O` characters reproduces the text), every window has length at most `C`,
and every pair of consecutive windows shares exactly `O` characters (the
last `O` of one are the first `O` of the next).  The produced chunks are
exactly the non-empty `.strip()`-trims of these windows, in order, and so
also have length at most `C`; coverage and exact overlap need not survive
the trimming (see the counterexample). -/
theorem chunk_text_window_cover (text : Str) (C O : Nat) (hC : 1 ≤ C) (hO : O < C) :
    chunk_text text C O =
      ((chunkWindows text C O).map pyStrip).filter (fun c => !c.isEmpty) ∧
    joinWithOverlap O (chunkWindows text C O) = text ∧
    (∀ w ∈ chunkWindows text C O, w.length ≤ C) ∧
    List.Chain' (overlapRel O) (chunkWindows text C O) ∧
    (∀ c ∈ chunk_text text C O, c.length ≤ C) := by
  have hsome : (windowLoop text C O (text.length + 1) 0).isSome = true := by
    have h1 := chunkLoop_isSome text C O hO (text.length + 1) 0 (by omega)
    rw [chunkLoop_eq_windowLoop] at h1
    simpa using h1
  obtain ⟨ws, hws⟩ := Option.isSome_iff_exists.mp hsome
  have hcw : chunkWindows text C O = ws := by simp [chunkWindows, hws]
  have hct : chunk_text text C O = (ws.map pyStrip).filter fun c => !c.isEmpty := by
    simp [chunk_text, chunkLoop_eq_windowLoop, hws]
  obtain ⟨hj, hlen, -, hchain⟩ := windowLoop_spec text C O hO (text.length + 1) 0 ws hws
  rw [List.drop_zero] at hj
  refine ⟨by rw [hct, hcw], by rw [hcw]; exact hj, by rw [hcw]; exact hlen,
    by rw [hcw]; exact hchain, ?_⟩
  intro c hc
  rw [hct] at hc
  have hc2 := List.mem_of_mem_filter hc
  rw [List.mem_map] at hc2
  obtain ⟨w, hw, hcw2⟩ := hc2
  rw [← hcw2]
  exact le_trans (pyStrip_length_le w) (hlen w hw)

/-- Witness for the amended C2 at `text = "abcde"`, `chunk_size = 3`,
`overlap = 1`. -/
theorem chunk_text_window_cover_witness :
    (1 ≤ 3 ∧ 1 < 3) ∧
    (chunk_text demoText 3 1 =
       ((chunkWindows demoText 3 1).map pyStrip).filter (fun c => !c.isEmpty) ∧
     joinWithOverlap 1 (chunkWindows demoText 3 1) = demoText ∧
     (∀ w ∈ chunkWindows demoText 3 1, w.length ≤ 3) ∧
     List.Chain' (overlapRel 1) (chunkWindows demoText 3 1) ∧
     (∀ c ∈ chunk_text demoText 3 1, c.length ≤ 3)) :=
  ⟨by decide, chunk_text_window_cover demoText 3 1 (by decide) (by decide)⟩

lemma chunkIds_spec (uuidOf : Nat → Str) :
    ∀ (recs : List Record) (ctr : Nat),
      chunkIds uuidOf recs ctr =
        (recs.flatMap validChunks,
         (List.range (recs.flatMap validChunks).length).map (fun i => uuidOf (ctr + i)),
         ctr + (recs.flatMap validChunks).length) := by
  intro recs
  induction recs with
  | nil => intro ctr; simp [chunkIds]
  | cons rec rest ih =>
    intro ctr
    rw [chunkIds]
    cases hvt : validText (extractText rec) with
    | none =>
      have hvc : validChunks rec = [] := by simp [validChunks, hvt]
      simp [hvt, ih ctr, List.flatMap_cons, hvc]
    | some t =>
      have hvc : validChunks rec = chunk_text t 800 120 := by simp [validChunks, hvt]
      simp only [List.flatMap_cons, hvc, ih (ctr + (chunk_text t 800 120).length),
        Prod.mk.injEq]
      refine ⟨trivial, ?_, by simp [List.length_append]; omega⟩
      rw [List.length_append, List.range_add, List.map_append, List.map_map]
      congr 1
      apply List.map_congr_left
      intro i hi
      show uuidOf (ctr + (chunk_text t 800 120).length + i) =
        uuidOf (ctr + ((chunk_text t 800 120).length + i))
      congr 1
      omega

lemma newItems_eq_zip (embed : Str → List ℚ) (uuidOf : Nat → Str) (src : Str) :
    ∀ (chunks : List Str) (ctr : Nat),
      ((((List.range chunks.length).map fun i => uuidOf (ctr + i)).zip
          (chunks.zip (chunks.map embed))).map
        fun p => Item.mk p.1 p.2.1 src (some p.2.2)) =
      newItems embed uuidOf src chunks ctr := by
  intro chunks
  induction chunks with
  | nil => intro ctr; rfl
  | cons c cs ih =>
    intro ctr
    simp only [List.length_cons, List.range_succ_eq_map, List.map_cons, List.map_map,
      List.zip_cons_cons, newItems, Nat.add_zero, List.cons.injEq]
    refine ⟨trivial, ?_⟩
    rw [← ih (ctr + 1)]
    congr 1
    congr 1
    apply List.map_congr_left
    intro i hi
    show uuidOf (ctr + (i + 1)) = uuidOf (ctr + 1 + i)
    congr 1
    omega

lemma newItems_map_id (embed : Str → List ℚ) (uuidOf : Nat → Str) (src : Str) :
    ∀ (chunks : List Str) (ctr : Nat),
      (newItems embed uuidOf src chunks ctr).map Item.id =
        (List.range chunks.length).map fun i => uuidOf (ctr + i) := by
  intro chunks
  induction chunks with
  | nil => intro ctr; rfl
  | cons c cs ih =>
    intro ctr
    simp only [newItems, List.map_cons, List.length_cons, List.range_succ_eq_map,
      List.map_map, Nat.add_zero, List.cons.injEq]
    refine ⟨trivial, ?_⟩
    rw [ih (ctr + 1)]
    apply List.map_congr_left
    intro i hi
    show uuidOf (ctr + 1 + i) = uuidOf (ctr + (i + 1))
    congr 1
    omega

lemma foldl_add_spec (src : Str) : ∀ (l : List (Str × Str × List ℚ)) (s : StoreState),
    (l.foldl (fun st p => add st p.1 p.2.1 src p.2.2) s).items =
      s.items ++ l.map (fun p => Item.mk p.1 p.2.1 src (some p.2.2)) ∧
    (l.foldl (fun st p => add st p.1 p.2.1 src p.2.2) s).file = s.file := by
  intro l
  induction l with
  | nil => intro s; simp
  | cons p ps ih =>
    intro s
    simp only [List.foldl_cons, List.map_cons]
    obtain ⟨h1, h2⟩ := ih (add s p.1 p.2.1 src p.2.2)
    refine ⟨?_, h2⟩
    rw [h1]
    simp [add]

/-- Claim C6: `ingest_records` extracts each record's `text` (falling back to
`description`), skips records whose extracted value is not a string or is
blank after trimming, appends to the store one item per chunk of each
surviving text — in order, each carrying a freshly drawn id, the chunk text,
the given source name and the chunk's embedding — persists the store to the
backing file exactly when something was added, and returns the total number
of chunks added, which is `0` when no record has valid text (then the flat
chunk list is empty).  Under an injective id supply the freshly drawn ids
are pairwise distinct. -/
theorem ingest_records_spec (embed : Str → List ℚ) (uuidOf : Nat → Str)
    (s : StoreState) (ctr : Nat) (records : List Record) (src : Str)
    (hinj : Function.Injective uuidOf) :
    (ingest_records embed uuidOf s ctr records src).ret =
      (records.flatMap validChunks).length ∧
    (ingest_records embed uuidOf s ctr records src).store.items =
      s.items ++ newItems embed uuidOf src (records.flatMap validChunks) ctr ∧
    (ingest_records embed uuidOf s ctr records src).ctr =
      ctr + (records.flatMap validChunks).length ∧
    (ingest_records embed uuidOf s ctr records src).embedCalls =
      (if (records.flatMap validChunks).isEmpty then 0 else 1) ∧
    (ingest_records embed uuidOf s ctr records src).store.file =
      (if (records.flatMap validChunks).isEmpty then s.file else
        some (Json.jarr ((s.items ++
          newItems embed uuidOf src (records.flatMap validChunks) ctr).map encodeItem))) ∧
    ((newItems embed uuidOf src (records.flatMap validChunks) ctr).map Item.id).Nodup := by
  have hnodup :
      ((newItems embed uuidOf src (records.flatMap validChunks) ctr).map Item.id).Nodup := by
    rw [newItems_map_id]
    apply List.Nodup.map
    · intro a b hab
      have := hinj hab
      omega
    · exact List.nodup_range _
  unfold ingest_records
  rw [chunkIds_spec]
  by_cases hA : (records.flatMap validChunks).isEmpty
  · rw [List.isEmpty_iff] at hA
    simp only [hA]
    simp [newItems, hA ▸ hnodup, hA]
  · have hA2 : (records.flatMap validChunks).isEmpty = false := by
      simpa using hA
    obtain ⟨hitems, hfile⟩ := foldl_add_spec src
      (((List.range (records.flatMap validChunks).length).map
          (fun i => uuidOf (ctr + i))).zip
        ((records.flatMap validChunks).zip ((records.flatMap validChunks).map embed))) s
    refine ⟨?_, ?_, ?_, ?_, ?_, hnodup⟩ <;>
      simp only [hA2, Bool.false_eq_true, if_false, save]
    · rw [hitems, newItems_eq_zip]
    · rw [hitems, newItems_eq_zip]

/-- Witness for C6 with one valid record, the id supply `n ↦ "x" * n`
(injective) and a length-based embedding oracle. -/
theorem ingest_records_spec_witness :
    Function.Injective demoUuid ∧
    ((ingest_records demoEmbed demoUuid emptyStore 0 demoRecords demoText).ret =
       (demoRecords.flatMap validChunks).length ∧
     (ingest_records demoEmbed demoUuid emptyStore 0 demoRecords demoText).store.items =
       emptyStore.items ++
         newItems demoEmbed demoUuid demoText (demoRecords.flatMap validChunks) 0 ∧
     (ingest_records demoEmbed demoUuid emptyStore 0 demoRecords demoText).ctr =
       0 + (demoRecords.flatMap validChunks).length ∧
     (ingest_records demoEmbed demoUuid emptyStore 0 demoRecords demoText).embedCalls =
       (if (demoRecords.flatMap validChunks).isEmpty then 0 else 1) ∧
     (ingest_records demoEmbed demoUuid emptyStore 0 demoRecords demoText).store.file =
       (if (demoRecords.flatMap validChunks).isEmpty then emptyStore.file else
         some (Json.jarr ((emptyStore.items ++
           newItems demoEmbed demoUuid demoText
             (demoRecords.flatMap validChunks) 0).map encodeItem))) ∧
     ((newItems demoEmbed demoUuid demoText
         (demoRecords.flatMap validChunks) 0).map Item.id).Nodup) :=
  have hinj : Function.Injective demoUuid := fun a b hab => by
    simpa [demoUuid] using congrArg List.length hab
  ⟨hinj, ingest_records_spec demoEmbed demoUuid emptyStore 0 demoRecords demoText hinj⟩

/-- Claim C10: when no record yields a chunk — every record's text is
missing, not a string, or blank after trimming — `ingest_records` returns
`0`, never calls the embedding service, draws no ids, and leaves the store
(items and backing file alike) exactly as it was on entry. -/
theorem ingest_records_noop_when_no_valid_text (embed : Str → List ℚ)
    (uuidOf : Nat → Str) (s : StoreState) (ctr : Nat) (records : List Record)
    (src : Str) (h : ∀ rec ∈ records, validText (extractText rec) = none) :
    ingest_records embed uuidOf s ctr records src =
      { ret := 0, store := s, ctr := ctr, embedCalls := 0 } := by
  have hA : records.flatMap validChunks = [] := by
    rw [List.flatMap_eq_nil_iff]
    intro rec hrec
    simp [validChunks, h rec hrec]
  unfold ingest_records
  rw [chunkIds_spec, hA]
  simp

/-- Witness for C10 on two invalid records. -/
theorem ingest_records_noop_witness :
    (∀ rec ∈ invalidRecords, validText (extractText rec) = none) ∧
    ingest_records demoEmbed demoUuid emptyStore 7 invalidRecords demoText =
      { ret := 0, store := emptyStore, ctr := 7, embedCalls := 0 } :=
  ⟨by decide, ingest_records_noop_when_no_valid_text demoEmbed demoUuid emptyStore 7
    invalidRecords demoText (by decide)⟩

lemma searchLe_trans : ∀ a b c : ℚ × Item, searchLe a b → searchLe b c → searchLe a c := by
  intro a b c hab hbc
  simp only [searchLe, decide_eq_true_eq] at hab hbc ⊢
  exact le_trans hbc hab

lemma searchLe_total : ∀ a b : ℚ × Item, searchLe a b || searchLe b a := by
  intro a b
  simp only [searchLe]
  rcases le_total a.1 b.1 with h | h <;> simp [h]

lemma enumLE_searchLe_eq (a b : Nat × (ℚ × Item)) :
    List.enumLE searchLe a b =
      (decide (b.2.1 < a.2.1) || (decide (a.2.1 = b.2.1) && decide (a.1 ≤ b.1))) := by
  simp only [List.enumLE, searchLe]
  rcases lt_trichotomy a.2.1 b.2.1 with h | h | h
  · rw [if_neg (by simpa using h.not_le)]
    simp [h.ne, (lt_asymm h : ¬ b.2.1 < a.2.1)]
  · rw [if_pos (by simpa using h.ge), if_pos (by simpa using h.le)]
    simp [h, lt_irrefl]
  · rw [if_pos (by simpa using h.le)]
    rw [if_neg (by simpa using h.not_le)]
    simp [h]

/-- Claim C1: on a store whose items all have truthy (present, non-empty)
embeddings, `search(q, k)` returns the first `min(k, n)` entries of the
stable descending sort of the scored items: its length is `min(k, n)`; when
`k ≥ n` it is a permutation of the whole store; it equals the `k`-prefix of
the insertion-index-decorated sort `rankedWithIdx`, whose order — see the
fourth conjunct — is "strictly greater score first, equal scores resolved by
smaller insertion index first", which is exactly descending cosine
similarity with ties broken by insertion order; it is pairwise descending in
cosine similarity to the query; and the store splits into the returned items
and a remainder every member of which scores no higher than any returned
item, so the result is exactly a set of top-`min(k, n)` scorers. -/
theorem search_topk (sq : ℚ → ℚ) (items : List Item) (q : List ℚ) (k : Nat)
    (h : ∀ it ∈ items, embTruthy it.embedding = true) :
    (search sq items q k).length = min k items.length ∧
    (items.length ≤ k → (search sq items q k).Perm items) ∧
    search sq items q k = ((rankedWithIdx sq items q).take k).map (fun p => p.2.2) ∧
    (∀ a b : Nat × (ℚ × Item), List.enumLE searchLe a b =
      (decide (b.2.1 < a.2.1) || (decide (a.2.1 = b.2.1) && decide (a.1 ≤ b.1)))) ∧
    (search sq items q k).Pairwise (fun x y =>
      cosine_similarity sq q (y.embedding.getD []) ≤
        cosine_similarity sq q (x.embedding.getD [])) ∧
    (∃ rest : List Item, items.Perm (search sq items q k ++ rest) ∧
      ∀ x ∈ search sq items q k, ∀ y ∈ rest,
        cosine_similarity sq q (y.embedding.getD []) ≤
          cosine_similarity sq q (x.embedding.getD [])) := by
  have hscore : ∀ it ∈ items,
      itemScore sq q it = cosine_similarity sq q (it.embedding.getD []) := by
    intro it hit
    unfold itemScore
    rw [h it hit]
    simp
  have hshape : ∀ p ∈ (scoredOf sq q items).mergeSort searchLe,
      p.1 = itemScore sq q p.2 ∧ p.2 ∈ items := by
    intro p hp
    rw [List.mem_mergeSort] at hp
    unfold scoredOf at hp
    rw [List.mem_map] at hp
    obtain ⟨it, hit, hpe⟩ := hp
    rw [← hpe]
    exact ⟨rfl, hit⟩
  have hlen_sorted : ((scoredOf sq q items).mergeSort searchLe).length = items.length := by
    simp [scoredOf]
  have hmapsnd : (scoredOf sq q items).map (fun p => p.2) = items := by
    unfold scoredOf
    rw [List.map_map]
    exact List.map_id items
  have hsorted := List.sorted_mergeSort searchLe_trans searchLe_total (scoredOf sq q items)
  have hdom : ∀ x ∈ search sq items q k,
      ∀ y ∈ ((scoredOf sq q items).mergeSort searchLe).drop k |>.map (fun p => p.2),
      cosine_similarity sq q (y.embedding.getD []) ≤
        cosine_similarity sq q (x.embedding.getD []) := by
    intro x hx y hy
    unfold search at hx
    rw [List.mem_map] at hx hy
    obtain ⟨p, hp, hpx⟩ := hx
    obtain ⟨p2, hp2, hp2y⟩ := hy
    have hrel := hsorted.rel_of_mem_take_of_mem_drop hp hp2
    simp only [searchLe, decide_eq_true_eq] at hrel
    obtain ⟨hps, hpm⟩ := hshape p (List.mem_of_mem_take hp)
    obtain ⟨hp2s, hp2m⟩ := hshape p2 (List.mem_of_mem_drop hp2)
    rw [← hpx, ← hp2y, ← hscore p.2 hpm, ← hscore p2.2 hp2m, ← hps, ← hp2s]
    exact hrel
  refine ⟨?_, ?_, ?_, enumLE_searchLe_eq, ?_, ?_⟩
  · unfold search
    simp [hlen_sorted]
  · intro hk
    unfold search
    rw [List.take_of_length_le (by omega)]
    have hperm := (List.mergeSort_perm (scoredOf sq q items) searchLe).map (fun p => p.2)
    rw [hmapsnd] at hperm
    exact hperm
  · unfold search rankedWithIdx
    have henum : (List.mergeSort ((scoredOf sq q items).enum) (List.enumLE searchLe)).map
        (fun p => p.2) = (scoredOf sq q items).mergeSort searchLe := List.mergeSort_enum
    rw [← henum, ← List.map_take, List.map_map]
    rfl
  · unfold search
    rw [List.pairwise_map]
    have htake := hsorted.sublist (List.take_sublist k _)
    apply htake.imp_of_mem
    intro a b ha hb hab
    obtain ⟨has, ham⟩ := hshape a (List.mem_of_mem_take ha)
    obtain ⟨hbs, hbm⟩ := hshape b (List.mem_of_mem_take hb)
    simp only [searchLe, decide_eq_true_eq] at hab
    rw [← hscore a.2 ham, ← hscore b.2 hbm, ← has, ← hbs]
    exact hab
  · refine ⟨((scoredOf sq q items).mergeSort searchLe).drop k |>.map (fun p => p.2),
      ?_, hdom⟩
    have hperm2 := (List.mergeSort_perm (scoredOf sq q items) searchLe).map (fun p => p.2)
    rw [hmapsnd] at hperm2
    have happ : search sq items q k ++
        (((scoredOf sq q items).mergeSort searchLe).drop k |>.map (fun p => p.2)) =
        ((scoredOf sq q items).mergeSort searchLe).map (fun p => p.2) := by
      unfold search
      rw [← List.map_append, List.take_append_drop]
    rw [happ]
    exact hperm2.symm

/-- Witness for C1: two items with embeddings `[1]` and `[2]`, query `[1]`,
`k = 1`, square root `id`. -/
theorem search_topk_witness :
    (∀ it ∈ [Item.mk ('x' :: []) [] [] (some [1]), Item.mk ('y' :: []) [] [] (some [2])],
      embTruthy it.embedding = true) ∧
    ((search id [Item.mk ('x' :: []) [] [] (some [1]),
        Item.mk ('y' :: []) [] [] (some [2])] [1] 1).length =
      min 1 ([Item.mk ('x' :: []) [] [] (some [1]),
        Item.mk ('y' :: []) [] [] (some [2])] : List Item).length ∧
     (([Item.mk ('x' :: []) [] [] (some [1]),
        Item.mk ('y' :: []) [] [] (some [2])] : List Item).length ≤ 1 →
       (search id [Item.mk ('x' :: []) [] [] (some [1]),
         Item.mk ('y' :: []) [] [] (some [2])] [1] 1).Perm
         [Item.mk ('x' :: []) [] [] (some [1]), Item.mk ('y' :: []) [] [] (some [2])]) ∧
     search id [Item.mk ('x' :: []) [] [] (some [1]),
        Item.mk ('y' :: []) [] [] (some [2])] [1] 1 =
       ((rankedWithIdx id [Item.mk ('x' :: []) [] [] (some [1]),
          Item.mk ('y' :: []) [] [] (some [2])] [1]).take 1).map (fun p => p.2.2) ∧
     (∀ a b : Nat × (ℚ × Item), List.enumLE searchLe a b =
       (decide (b.2.1 < a.2.1) || (decide (a.2.1 = b.2.1) && decide (a.1 ≤ b.1)))) ∧
     (search id [Item.mk ('x' :: []) [] [] (some [1]),
        Item.mk ('y' :: []) [] [] (some [2])] [1] 1).Pairwise (fun x y =>
       cosine_similarity id [1] (y.embedding.getD []) ≤
         cosine_similarity id [1] (x.embedding.getD [])) ∧
     (∃ rest : List Item,
       ([Item.mk ('x' :: []) [] [] (some [1]),
          Item.mk ('y' :: []) [] [] (some [2])] : List Item).Perm
         (search id [Item.mk ('x' :: []) [] [] (some [1]),
            Item.mk ('y' :: []) [] [] (some [2])] [1] 1 ++ rest) ∧
       ∀ x ∈ search id [Item.mk ('x' :: []) [] [] (some [1]),
           Item.mk ('y' :: []) [] [] (some [2])] [1] 1, ∀ y ∈ rest,
         cosine_similarity id [1] (y.embedding.getD []) ≤
           cosine_similarity id [1] (x.embedding.getD []))) :=
  ⟨by decide, search_topk id
    [Item.mk ('x' :: []) [] [] (some [1]), Item.mk ('y' :: []) [] [] (some [2])]
    [1] 1 (by decide)⟩

end RagDemo
